import Mathlib

/-!
Verification of the pybids file-indexing engine (`src/bids/layout/index.py`)
against its specification.

The development is a shallow embedding of `index.py`:

* Python dicts (which preserve insertion order, overwrite in place, and
  append new keys at the end) are modelled as association lists
  `List (String × α)` with `dSet` / `dGet` / `dUpdate` / `dPop` mirroring
  `d[k] = v`, `d.get(k)`, `d.update(e)` and `d.pop(k, None)`.
* `os.path.join(a, b)` for a directory `a` and a relative name `b` is
  `a ++ "/" ++ b`; `str.startswith` / `str.endswith` are prefix/suffix
  tests on the character lists; `os.path.dirname` is `dirnameStr`,
  a direct transcription of posixpath `dirname` (split at the last slash,
  keep the head, strip trailing slashes unless the head is all slashes).
* The external collaborators named by the spec (EntityMatcher patterns,
  the validation predicates, force-index patterns, the JSON reader) are
  function-valued parameters, as the spec treats them as opaque interfaces.
* The store (`session.add` / `commit`) is modelled by the list of records
  produced, in `add` order; `commit` batching does not change that list.

Directory trees are finite (`DirTree`), so the recursive walk is structural;
the unbounded `while True` ancestry climb of `_index_metadata` is modelled
with a fuel parameter together with a proof (`dirChain_eq`) that the fuel
never runs out, i.e. that the fuelled function satisfies the loop's
defining equation.
-/

set_option maxHeartbeats 1000000

namespace PyBids

/-- Values stored as entity values and JSON payload values (scalars). -/
inductive Val where
  | s : String → Val
  | i : Int → Val
  deriving DecidableEq

/-- Python `str(v)` for the values above. -/
def strOfVal : Val → String
  | .s t => t
  | .i n => toString n

/-- Python dict assignment `d[k] = v`: overwrite the existing entry in
place, or append a new entry at the end. -/
def dSet {α : Type} : List (String × α) → String → α → List (String × α)
  | [], k, v => [(k, v)]
  | p :: rest, k, v => if p.1 = k then (k, v) :: rest else p :: dSet rest k v

/-- Python `d.get(k)` / `d[k]`: value of the first entry with key `k`. -/
def dGet {α : Type} : List (String × α) → String → Option α
  | [], _ => none
  | p :: rest, k => if p.1 = k then some p.2 else dGet rest k

/-- Python `d.update(e)`: assign every entry of `e` into `d`, in order. -/
def dUpdate {α : Type} (d e : List (String × α)) : List (String × α) :=
  e.foldl (fun acc p => dSet acc p.1 p.2) d

/-- Keys of a dict, in order. -/
def dKeys {α : Type} (d : List (String × α)) : List String := d.map (fun p => p.1)

/-- Values of a dict, in order (Python `d.values()`). -/
def dValues {α : Type} (d : List (String × α)) : List α := d.map (fun p => p.2)

/-- Removal of a key (the deletion part of Python `d.pop(k, None)`). -/
def dRemove {α : Type} : List (String × α) → String → List (String × α)
  | [], _ => []
  | p :: rest, k => if p.1 = k then dRemove rest k else p :: dRemove rest k

/-- Python `d.pop(k, None)`: the looked-up value and the dict without `k`. -/
def dPop {α : Type} (d : List (String × α)) (k : String) :
    Option α × List (String × α) :=
  (dGet d k, dRemove d k)

/-- Python `s.startswith(pre)`. -/
def strStartswith (s pre : String) : Bool := pre.data.isPrefixOf s.data

/-- Python `s.endswith(suf)`. -/
def strEndswith (s suf : String) : Bool := suf.data.isSuffixOf s.data

/-- Model of `os.path.join(a, b)` for a directory path `a` and a relative
component `b` (the only way the source calls it). -/
def pathJoin (a b : String) : String := a ++ "/" ++ b

/-- Core of `os.path.dirname`, acting on the reversed character list:
drop the reversed basename up to the last slash; keep the head if it is
all slashes, otherwise strip its trailing slashes (posixpath.dirname). -/
def dirnameRev (r : List Char) : List Char :=
  if r.dropWhile (fun c => c ≠ '/') = [] then []
  else if (r.dropWhile (fun c => c ≠ '/')).all (fun c => c = '/') then
    r.dropWhile (fun c => c ≠ '/')
  else (r.dropWhile (fun c => c ≠ '/')).dropWhile (fun c => c = '/')

/-- Model of `os.path.dirname(p)` (posix). -/
def dirnameStr (p : String) : String :=
  ⟨(dirnameRev p.data.reverse).reverse⟩

/-- Fuelled transcription of the `while True` ancestry climb of
`_index_metadata` (lines 194-219): visit `dirname`, move to its parent,
stop (after visiting) once the parent equals the directory. -/
def dirChainF : Nat → String → List String
  | 0, d => [d]
  | n + 1, d => if dirnameStr d = d then [d] else d :: dirChainF n (dirnameStr d)

/-- The list of directories visited by the ancestry climb starting at `d`:
`d` itself first, then each successive `os.path.dirname`, ending with the
fixed point (the filesystem root). `dirChain_eq` below shows the fuel
`d.length + 1` always suffices. -/
def dirChain (d : String) : List String := dirChainF (d.length + 1) d

/-- An entity definition: name, `mandatory` flag, the (external)
EntityMatcher match rule `match_file`, and the `is_metadata` flag. -/
structure Entity where
  name : String
  mandatory : Bool
  matchFile : String → Option String
  isMetadata : Bool

/-- A Tag record: `(File, Entity, value)`, the entity identified by its
(run-globally unique) name. -/
structure Tag where
  file : String
  entity : String
  value : Val
  deriving DecidableEq

/-- Kinds of FileAssociation records. -/
inductive AKind where
  | metadata
  | parent
  | child
  deriving DecidableEq

/-- A FileAssociation record: directed edge `(src, dst, kind)`. -/
structure Assoc where
  src : String
  dst : String
  kind : AKind
  deriving DecidableEq

/-- A Config: its `entities` dict (name → Entity). -/
abbrev Config := List (String × Entity)

/-- The loop body shared by `_extract_entities` (lines 18-26) and the
inline loop of `_index_file` (lines 47-53): iterate the entities in
order; on a failed match of a mandatory entity stop (`break`), keeping
the matches made so far; record each successful match under the entity's
name. `acc` is the `match_vals` dict built so far. -/
def extractGo (bf : String) (acc : List (String × (Entity × String))) :
    List Entity → List (String × (Entity × String))
  | [] => acc
  | e :: rest =>
    match e.matchFile bf with
    | none => if e.mandatory then acc else extractGo bf acc rest
    | some m => extractGo bf (dSet acc e.name (e, m)) rest

/-- Lines 18-26: the module-level helper `_extract_entities(bidsfile,
entities)`. -/
def extractEntitiesGo (bidsfile : String)
    (acc : List (String × (Entity × String))) :
    List Entity → List (String × (Entity × String))
  | [] => acc
  | e :: rest =>
    match e.matchFile bidsfile with
    | none => if e.mandatory then acc else extractEntitiesGo bidsfile acc rest
    | some m => extractEntitiesGo bidsfile (dSet acc e.name (e, m)) rest

/-- `_extract_entities(bidsfile, entities)`: the loop over
`entities.values()` starting from an empty `match_vals`. -/
def extractEntities (bidsfile : String) (entities : List (String × Entity)) :
    List (String × (Entity × String)) :=
  extractEntitiesGo bidsfile [] (dValues entities)

/-- The inline extraction of `_index_file` (lines 47-53), starting from an
empty `match_vals` over `entities.values()`. -/
def inlineMatchVals (bf : String) (entities : List (String × Entity)) :
    List (String × (Entity × String)) :=
  extractGo bf [] (dValues entities)

/-- The external predicates the walk branches on: the dataset root, the
force-index patterns (`layout.force_index`), and the validation
predicates (`layout._validate_dir`, `layout._validate_file`). -/
structure Layout where
  root : String
  forcePats : List (String → Bool)
  validateDir : String → Bool
  validateFile : String → Bool

/-- `check_path_matches_patterns(d, layout.force_index)`. -/
def matchesForce (L : Layout) (d : String) : Bool :=
  L.forcePats.any (fun p => p d)

/-- Lines 35-61: `_index_file(f, dirpath, entities)`. Returns `none` when
the file is skipped, otherwise the created File record (its absolute path)
with the Tags added for it. `forceArg` is the truthiness of the top-level
`force_index` argument of `index_layout`, which is the variable the
closure reads on line 40. -/
def indexFileRec (forceArg : Bool) (L : Layout) (f dirpath : String)
    (entities : List (String × Entity)) : Option (String × List Tag) :=
  let abs_fn := pathJoin dirpath f
  if !forceArg && !L.validateFile abs_fn then none
  else
    let mv := extractGo abs_fn [] (dValues entities)
    some (abs_fn, mv.map (fun p => ⟨abs_fn, p.2.1.name, Val.s p.2.2⟩))

/-- The tag list of a possibly-skipped file record (empty when skipped). -/
def tagsOf (r : Option (String × List Tag)) : List Tag :=
  (r.map (fun p => p.2)).getD []

mutual
/-- A directory on disk: its own config file if present (modelling
`os.path.exists(config_file)` plus `Config.load`; the config filename is
excluded from the plain file listing, as lines 85-86 do), the plain files
directly in it, and its named subdirectories. -/
inductive DirTree where
  | node : Option Config → List String → SubForest → DirTree

/-- The ordered subdirectory listing of a directory. -/
inductive SubForest where
  | nil : SubForest
  | cons : String → DirTree → SubForest → SubForest
end

/-- Concatenation of subdirectory listings. -/
def sappend : SubForest → SubForest → SubForest
  | .nil, t => t
  | .cons n d rest, t => .cons n d (sappend rest t)

mutual
/-- Lines 63-125: `index_dir(path, config, parent, force_index)`. `path`
is the absolute path of the directory `t`; the result is the list of
(File record, its Tags) pairs in `session.add` order. The `os.walk` with
an immediate `break` visits exactly the first level, so files are indexed
at `dirpath = path` and subdirectories are recursed into manually. -/
def indexDir (forceArg : Bool) (L : Layout) :
    DirTree → String → List Config → Bool → List (String × List Tag)
  | .node cfg files subs, path, config, fi =>
    let config' := match cfg with
      | some c => config ++ [c]
      | none => config
    let config_entities := config'.foldl (fun acc c => dUpdate acc c) []
    files.filterMap (fun f => indexFileRec forceArg L f path config_entities)
      ++ indexSubs forceArg L subs path config' fi

/-- Lines 97-125: the subdirectory loop of `index_dir`. Note that line
114 (`force_index = True`) mutates the loop variable, so once one
subdirectory matches a force-index pattern all later siblings are also
recursed into with `force_index=True`; the threading of `fi` mirrors
that. -/
def indexSubs (forceArg : Bool) (L : Layout) :
    SubForest → String → List Config → Bool → List (String × List Tag)
  | .nil, _, _, _ => []
  | .cons dname sub rest, path, config, fi =>
    let d := pathJoin path dname
    if strStartswith d (pathJoin L.root "derivatives") then
      indexSubs forceArg L rest path config fi
    else if matchesForce L d then
      indexDir forceArg L sub d config true
        ++ indexSubs forceArg L rest path config true
    else if !(L.validateDir d) && L.forcePats.isEmpty then
      indexSubs forceArg L rest path config fi
    else
      indexDir forceArg L sub d config fi
        ++ indexSubs forceArg L rest path config fi
end

/-- Lines 29-127: the walk part of `index_layout(layout, force_index,
index_metadata)`: `index_dir(root_path, config, None, force_index)`.
`config` is `list(layout.config.values())` and `forceArg` is the
truthiness of the `force_index` argument (None ↝ false), which is both
the closure variable read by `_index_file` and the initial value of
`index_dir`'s `force_index` parameter. -/
def indexLayoutWalk (L : Layout) (forceArg : Bool) (t : DirTree)
    (config : List Config) : List (String × List Tag) :=
  indexDir forceArg L t L.root config forceArg

/-- An Entity as the metadata pass handles it: the `all_entities` registry
stores, per name, the entity record with its `is_metadata` flag (lines
139-142 and 259-263). -/
structure EntityRec where
  name : String
  isMetadata : Bool
  deriving DecidableEq

/-- Entity-name → value dicts (a file's `entities`, a JSON payload). -/
abbrev Ents := List (String × Val)

/-- A file as the metadata pass sees it, via `layout.get()`: absolute
path, `dirname`, and its `entities` dict. -/
structure MFile where
  path : String
  dirname : String
  entities : Ents
  deriving DecidableEq

/-- An entry of the `file_data` store: `(entities, payload, path)`, the
payload parsed only for JSON files (lines 159-165). -/
structure FDEntry where
  ents : Ents
  payload : Option Ents
  path : String
  deriving DecidableEq

/-- The `file_data` store: `extension/suffix` key → dirname → entries in
append order (a dict of `defaultdict(list)`). -/
abbrev FData := List (String × List (String × List FDEntry))

/-- `file_data.get(key, {}).get(dn, [])`. -/
def fdGet (fd : FData) (key dn : String) : List FDEntry :=
  match dGet fd key with
  | none => []
  | some inner =>
    match dGet inner dn with
    | none => []
    | some l => l

/-- `file_data[key][dn].append(e)` with `file_data[key]` created on first
use (lines 156-157, 166). -/
def fdAppend (fd : FData) (key dn : String) (e : FDEntry) : FData :=
  match dGet fd key with
  | none => fd ++ [(key, [(dn, [e])])]
  | some inner =>
    match dGet inner dn with
    | none => dSet fd key (inner ++ [(dn, [e])])
    | some l => dSet fd key (dSet inner dn (l ++ [e]))

/-- Lines 149-166: the first loop of `_index_metadata`, building
`file_data` over all indexed files. A file is stored only when both its
`suffix` and `extension` entities exist; the payload is `json.load` of
the file (the external reader `readJson`) exactly when the extension
value is the string `json`. -/
def buildFileData (readJson : String → Ents) : List MFile → FData → FData
  | [], fd => fd
  | bf :: rest, fd =>
    let se := dPop bf.entities "suffix"
    let xe := dPop se.2 "extension"
    match se.1, xe.1 with
    | some suffix, some ext =>
      let key := strOfVal ext ++ "/" ++ strOfVal suffix
      let payload := if ext = Val.s "json" then some (readJson bf.path) else none
      buildFileData readJson rest (fdAppend fd key bf.dirname ⟨xe.2, payload, bf.path⟩)
    | _, _ => buildFileData readJson rest fd

/-- The candidate test of lines 197-203 and 208-213: every key of the
candidate's entities is present in the file's entities with an equal
value (`js_keys - file_ent_keys` empty, then per-key equality). -/
def entsMatch (cand fileEnts : Ents) : Bool :=
  cand.all (fun p => decide (dGet fileEnts p.1 = some p.2))

/-- Lines 196-204 over the whole ancestry: the JSON payload stack, in
visitation order (own directory first, then outward). -/
def collectPayloads (fd : FData) (jsonKey : String) (fileEnts : Ents)
    (dirs : List String) : List (Ents × String) :=
  dirs.foldr
    (fun dn acc =>
      ((fdGet fd jsonKey dn).filterMap (fun e =>
        if entsMatch e.ents fileEnts then some (e.payload.getD [], e.path)
        else none)) ++ acc)
    []

/-- Lines 207-214 over the whole ancestry: the `ancestors` path stack, in
visitation order. -/
def collectAncestors (fd : FData) (extKey : String) (fileEnts : Ents)
    (dirs : List String) : List String :=
  dirs.foldr
    (fun dn acc =>
      ((fdGet fd extKey dn).filterMap (fun e =>
        if entsMatch e.ents fileEnts then some e.path else none)) ++ acc)
    []

/-- Lines 232-235: `file_md = {}`, then `file_md.update(pl)` for the
payloads in reverse order (`payloads[::-1]`). -/
def consolidateMd (payloads : List (Ents × String)) : Ents :=
  payloads.reverse.foldl (fun acc p => dUpdate acc p.1) []

/-- Lines 237-257: the Child/Parent chain over consecutive elements of a
path list (used once for the payload paths and once for `ancestors`). -/
def chainAssocs : List String → List Assoc
  | a :: b :: rest =>
    ⟨a, b, AKind.child⟩ :: ⟨b, a, AKind.parent⟩ :: chainAssocs (b :: rest)
  | _ => []

/-- Lines 259-265: the tag/entity creation loop over `file_md.items()`.
Threads `(all_entities, new-entity records added, tag records added)`; a
previously unseen key creates `Entity(md_key, is_metadata=True)` and
registers it, an already known key reuses the registered entity. -/
def mdTagsGo (bfPath : String) :
    Ents → List (String × EntityRec) → List EntityRec → List Tag →
    List (String × EntityRec) × List EntityRec × List Tag
  | [], ae, ne, tg => (ae, ne, tg)
  | p :: rest, ae, ne, tg =>
    match dGet ae p.1 with
    | some er => mdTagsGo bfPath rest ae ne (tg ++ [⟨bfPath, er.name, p.2⟩])
    | none =>
      mdTagsGo bfPath rest (dSet ae p.1 ⟨p.1, true⟩) (ne ++ [⟨p.1, true⟩])
        (tg ++ [⟨bfPath, p.1, p.2⟩])

/-- The tags the loop of lines 259-265 appends for one file, computed
directly (used to characterise `mdTagsGo`). -/
def mdDelta (bfPath : String) : Ents → List (String × EntityRec) → List Tag
  | [], _ => []
  | p :: rest, ae =>
    match dGet ae p.1 with
    | some er => Tag.mk bfPath er.name p.2 :: mdDelta bfPath rest ae
    | none =>
      Tag.mk bfPath p.1 p.2 :: mdDelta bfPath rest (dSet ae p.1 ⟨p.1, true⟩)

/-- The mutable state of the metadata pass: the `all_entities` registry
and the records added so far (new Entity rows, FileAssociation rows, Tag
rows, each in `session.add` order). -/
structure MDState where
  allEntities : List (String × EntityRec)
  newEntities : List EntityRec
  assocs : List Assoc
  tags : List Tag
  deriving DecidableEq

/-- The payload stack the ancestry walk of lines 191-219 collects for one
file (empty when the file lacks `suffix` or `extension`). -/
def filePayloads (fd : FData) (bf : MFile) : List (Ents × String) :=
  let se := dPop bf.entities "suffix"
  let xe := dPop se.2 "extension"
  match se.1, xe.1 with
  | some suffix, some _ =>
    collectPayloads fd ("json/" ++ strOfVal suffix) xe.2 (dirChain bf.dirname)
  | _, _ => []

/-- Lines 170-265: the per-file body of the second loop of
`_index_metadata`. Files lacking `suffix` or `extension` are skipped
(lines 176-177); files with an empty payload stack are skipped (lines
221-222); otherwise the Metadata pair for `payloads[-1]`, the two
Child/Parent chains and the metadata tags are recorded. -/
def processFile (fd : FData) (st : MDState) (bf : MFile) : MDState :=
  let se := dPop bf.entities "suffix"
  let xe := dPop se.2 "extension"
  match se.1, xe.1 with
  | some suffix, some ext =>
    let file_ents := xe.2
    let ext_key := strOfVal ext ++ "/" ++ strOfVal suffix
    let json_key := "json/" ++ strOfVal suffix
    let dirs := dirChain bf.dirname
    let payloads := collectPayloads fd json_key file_ents dirs
    let ancestors := collectAncestors fd ext_key file_ents dirs
    match payloads.getLast? with
    | none => st
    | some lastP =>
      let mdAssocs : List Assoc :=
        [⟨lastP.2, bf.path, AKind.metadata⟩, ⟨bf.path, lastP.2, AKind.metadata⟩]
      let file_md := consolidateMd payloads
      let r := mdTagsGo bf.path file_md st.allEntities st.newEntities st.tags
      { allEntities := r.1
        newEntities := r.2.1
        assocs := st.assocs ++ mdAssocs
          ++ chainAssocs (payloads.map (fun p => p.2)) ++ chainAssocs ancestors
        tags := r.2.2 }
  | _, _ => st

/-- Lines 133-270: `_index_metadata(layout)`. `cfgEnts` is `all_entities`
as initialised from `layout.config.values()` (lines 140-142); `allFiles`
is `layout.get(absolute_paths=True)`; the second loop runs over the
non-`.json` files (line 169). -/
def indexMetadata (readJson : String → Ents)
    (cfgEnts : List (String × EntityRec)) (allFiles : List MFile) : MDState :=
  let fd := buildFileData readJson allFiles []
  let files := allFiles.filter (fun bf => !(strEndswith bf.path ".json"))
  files.foldl (fun st bf => processFile fd st bf) ⟨cfgEnts, [], [], []⟩

/-- Lines 140-142: `all_entities` seeded with the entities of the
layout's configs, reduced to the name/is_metadata view the pass uses. -/
def initAllEntities (configs : List Config) : List (String × EntityRec) :=
  configs.foldl
    (fun acc c => dUpdate acc (c.map (fun p => (p.1, EntityRec.mk p.2.name p.2.isMetadata))))
    []

/-- Modelled from the spec: `layout.get()` returns File records whose
`entities` attribute is the derived entity-name → value mapping built
from the file's Tags, and whose `dirname` is the directory of its path
(`BIDSFile` lives in `models.py`, which is not part of the indexing
source). Spec section 3: a File carries "absolute path, directory name,
derived mapping entity-name → value". -/
def mfileOf (rec : String × List Tag) : MFile :=
  ⟨rec.1, dirnameStr rec.1,
    rec.2.foldl (fun acc t => dSet acc t.entity t.value) []⟩

/-- Lines 29-130 with `index_metadata=True`: the walk followed by
`_index_metadata`, the file index handed over as the walk's records seen
through `mfileOf`. Returns the walk tags and the metadata pass state. -/
def indexLayoutFull (L : Layout) (forceArg : Bool) (t : DirTree)
    (config : List Config) (readJson : String → Ents) :
    List Tag × MDState :=
  let recs := indexDir forceArg L t L.root config forceArg
  let walkTags := recs.foldr (fun r acc => r.2 ++ acc) []
  (walkTags, indexMetadata readJson (initAllEntities config) (recs.map mfileOf))

/-- The registry invariant of the metadata pass, relative to the config
entities `cfgEnts` it started from: every registry entry is keyed by its
entity's name; the Entity rows created so far have pairwise-distinct
names; each created row is metadata-flagged, has a name unknown to the
configs, and is still what the registry maps its name to; and the
registry covers every config name. -/
def MDInv (cfgEnts ae : List (String × EntityRec)) (ne : List EntityRec) : Prop :=
  (∀ p ∈ ae, p.2.name = p.1)
  ∧ (ne.map (fun e => e.name)).Nodup
  ∧ (∀ er ∈ ne, er.isMetadata = true ∧ dGet cfgEnts er.name = none
      ∧ dGet ae er.name = some er)
  ∧ (∀ k, dGet ae k = none → dGet cfgEnts k = none)

/-! Concrete fixtures used as witnesses and counterexamples. -/

/-- Claim C1 fixture: one force-index pattern matching `/r/sub`, every
file invalid, top-level `force_index` argument falsy. -/
def c1Layout : Layout :=
  ⟨"/r", [fun d => d == "/r/sub"], fun _ => true, fun _ => false⟩

/-- Claim C1 fixture variant: same layout but with every file valid. -/
def c1LayoutValid : Layout :=
  ⟨"/r", [fun d => d == "/r/sub"], fun _ => true, fun _ => true⟩

/-- Claim C1 fixture tree: the root holding one subdirectory `sub` with a
single file. -/
def c1Tree : DirTree :=
  .node none [] (.cons "sub" (.node none ["f.txt"] .nil) .nil)

/-- Sidecar-precedence fixture: a suffix-`T` sidecar at the root with
payload a=1, b=2, a closer one in `/r/s` with payload b=3, and a data
file in `/r/s`. -/
def c2Files : List MFile :=
  [⟨"/r/t_T.json", "/r", [("suffix", .s "T"), ("extension", .s "json")]⟩,
   ⟨"/r/s/t_T.json", "/r/s", [("suffix", .s "T"), ("extension", .s "json")]⟩,
   ⟨"/r/s/x_T.nii", "/r/s", [("suffix", .s "T"), ("extension", .s "nii")]⟩]

/-- JSON contents for the sidecar-precedence fixture. -/
def c2ReadJson : String → Ents := fun p =>
  if p == "/r/t_T.json" then [("a", .i 1), ("b", .i 2)]
  else if p == "/r/s/t_T.json" then [("b", .i 3)] else []

/-- The `file_data` store of the sidecar-precedence fixture. -/
def c2Fd : FData := buildFileData c2ReadJson c2Files []

/-- The data file of the sidecar-precedence fixture. -/
def c2BfX : MFile :=
  ⟨"/r/s/x_T.nii", "/r/s", [("suffix", .s "T"), ("extension", .s "nii")]⟩

/-- An empty metadata-pass state. -/
def c0St : MDState := ⟨[], [], [], []⟩

/-- Claim C4 fixture: entity A, mandatory, matching `/r/f`. -/
def c4A : Entity :=
  ⟨"subj", true, fun p => if p == "/r/f" then some "01" else none, false⟩

/-- Claim C4 fixture: entity B, mandatory, matching nothing. -/
def c4B : Entity := ⟨"task", true, fun _ => none, false⟩

/-- Claim C4 fixture: entity C after B; it would match `/r/f`, but must
not be extracted because B already stopped the loop. -/
def c4C : Entity :=
  ⟨"acq", false, fun p => if p == "/r/f" then some "x" else none, false⟩

/-- Claim C4 fixture: the ordered entity dict A, B, C. -/
def c4Ents : List (String × Entity) :=
  [("subj", c4A), ("task", c4B), ("acq", c4C)]

/-- Claim C4 fixture layout: everything valid, no force patterns. -/
def c4L : Layout := ⟨"/r", [], fun _ => true, fun _ => true⟩

/-- Claim C5 fixture: filename entity `suffix`. -/
def c5Es : Entity :=
  ⟨"suffix", false,
    fun p => if p == "/r/a.nii" || p == "/r/b.json" then some "T" else none,
    false⟩

/-- Claim C5 fixture: filename entity `extension`. -/
def c5Ee : Entity :=
  ⟨"extension", false,
    fun p =>
      if p == "/r/a.nii" then some "nii"
      else if p == "/r/b.json" then some "json" else none,
    false⟩

/-- Claim C5 fixture: filename entity `run`, matched by `/r/a.nii`; the
sidecar carries a JSON key of the same name. -/
def c5Er : Entity :=
  ⟨"run", false, fun p => if p == "/r/a.nii" then some "1" else none, false⟩

/-- Claim C5 fixture config. -/
def c5Cfg : Config := [("suffix", c5Es), ("extension", c5Ee), ("run", c5Er)]

/-- Claim C5 fixture layout: everything valid, no force patterns. -/
def c5Layout : Layout := ⟨"/r", [], fun _ => true, fun _ => true⟩

/-- Claim C5 fixture tree: a data file and its sidecar at the root. -/
def c5Tree : DirTree := .node none ["a.nii", "b.json"] .nil

/-- Claim C5 fixture JSON contents: the sidecar redefines `run`. -/
def c5ReadJson : String → Ents :=
  fun p => if p == "/r/b.json" then [("run", Val.i 2)] else []

/-- Claim C5 fixture: the complete indexing run. -/
def c5Run : List Tag × MDState :=
  indexLayoutFull c5Layout false c5Tree [c5Cfg] c5ReadJson

/-- Claim C5 fixture: all Tag records of the run (walk then metadata). -/
def c5AllTags : List Tag := c5Run.1 ++ c5Run.2.tags

/-- Claim C7 fixture: one sidecar with key `a` and two data files that
both inherit it. -/
def c7Files : List MFile :=
  [⟨"/r/t_T.json", "/r", [("suffix", .s "T"), ("extension", .s "json")]⟩,
   ⟨"/r/x_T.nii", "/r", [("suffix", .s "T"), ("extension", .s "nii")]⟩,
   ⟨"/r/y_T.nii", "/r", [("suffix", .s "T"), ("extension", .s "nii")]⟩]

/-- Claim C7 fixture JSON contents. -/
def c7ReadJson : String → Ents :=
  fun p => if p == "/r/t_T.json" then [("a", .i 1)] else []

/-- Claim C8 fixture: a file whose suffix has no sidecar anywhere. -/
def c8Bf : MFile := ⟨"/q/z.nii", "/q", [("suffix", .s "Z"), ("extension", .s "nii")]⟩

/-- Claim C10 fixture layout. -/
def c10L : Layout := ⟨"/r", [], fun _ => true, fun _ => true⟩

/-- Claim C10 fixture: the subtree inside `derivatives2`. -/
def c10T : DirTree := .node none ["inside.txt"] .nil

/-! Dictionary lemmas. -/

theorem dGet_dSet {α : Type} (d : List (String × α)) (k k' : String) (v : α) :
    dGet (dSet d k v) k' = if k' = k then some v else dGet d k' := by
  induction d with
  | nil =>
    by_cases h : k' = k
    · simp [dSet, dGet, h]
    · simp [dSet, dGet, h, Ne.symm h]
  | cons p rest ih =>
    by_cases hp : p.1 = k
    · by_cases h : k' = k
      · simp [dSet, dGet, hp, h]
      · have hpk : ¬ k = k' := Ne.symm h
        simp [dSet, dGet, hp, h, hpk]
    · by_cases hpk : p.1 = k'
      · have h : ¬ k' = k := fun hh => hp (hpk.trans hh)
        simp [dSet, dGet, hp, hpk, h]
      · simp [dSet, dGet, hp, hpk, ih]

theorem dGet_eq_none_of_not_mem {α : Type} (d : List (String × α)) (k : String)
    (h : k ∉ dKeys d) : dGet d k = none := by
  induction d with
  | nil => rfl
  | cons p rest ih =>
    simp only [dKeys, List.map_cons, List.mem_cons] at h
    push_neg at h
    simp only [dGet, if_neg (fun hh : p.1 = k => h.1 hh.symm)]
    exact ih (by simpa [dKeys] using h.2)

theorem dGet_mem {α : Type} (d : List (String × α)) (k : String) (v : α)
    (h : dGet d k = some v) : (k, v) ∈ d := by
  induction d with
  | nil => simp [dGet] at h
  | cons p rest ih =>
    simp only [dGet] at h
    by_cases hp : p.1 = k
    · rw [if_pos hp] at h
      have hv : p.2 = v := by injection h
      have hpkv : p = (k, v) := by
        cases p
        simp only at hp hv
        simp [hp, hv]
      rw [← hpkv]
      exact List.mem_cons_self p rest
    · rw [if_neg hp] at h
      exact List.mem_cons_of_mem _ (ih h)

theorem dSet_keys_sub {α : Type} (d : List (String × α)) (k : String) (v : α) :
    ∀ x ∈ dKeys (dSet d k v), x ∈ dKeys d ∨ x = k := by
  induction d with
  | nil => simp [dSet, dKeys]
  | cons p rest ih =>
    intro x hx
    simp only [dSet] at hx
    by_cases hp : p.1 = k
    · rw [if_pos hp] at hx
      simp only [dKeys, List.map_cons, List.mem_cons] at hx ⊢
      rcases hx with h1 | h2
      · right; exact h1
      · left; right; exact h2
    · rw [if_neg hp] at hx
      simp only [dKeys, List.map_cons, List.mem_cons] at hx ⊢
      rcases hx with h1 | h2
      · left; left; exact h1
      · rcases ih x h2 with h3 | h4
        · left; right; exact h3
        · right; exact h4

theorem dKeys_dSet_nodup {α : Type} (d : List (String × α)) (k : String) (v : α)
    (h : (dKeys d).Nodup) : (dKeys (dSet d k v)).Nodup := by
  induction d with
  | nil => simp [dSet, dKeys]
  | cons p rest ih =>
    simp only [dKeys, List.map_cons, List.nodup_cons] at h
    by_cases hp : p.1 = k
    · subst hp
      simpa [dSet, dKeys, List.nodup_cons] using h
    · simp only [dSet, if_neg hp, dKeys, List.map_cons, List.nodup_cons]
      refine ⟨?_, ih h.2⟩
      intro hmem
      have hmem' : p.1 ∈ dKeys (dSet rest k v) := by simpa [dKeys] using hmem
      rcases dSet_keys_sub rest k v p.1 hmem' with h1 | h2
      · exact h.1 (by simpa [dKeys] using h1)
      · exact hp h2

theorem dGet_dUpdate {α : Type} (d e : List (String × α)) (k : String)
    (hnd : (dKeys e).Nodup) :
    dGet (dUpdate d e) k = if (dGet e k).isSome then dGet e k else dGet d k := by
  induction e generalizing d with
  | nil => simp [dUpdate, dGet]
  | cons p rest ih =>
    simp only [dKeys, List.map_cons, List.nodup_cons] at hnd
    have hstep : dUpdate d (p :: rest) = dUpdate (dSet d p.1 p.2) rest := rfl
    rw [hstep, ih _ hnd.2]
    by_cases hk : p.1 = k
    · have hr : dGet rest k = none := by
        apply dGet_eq_none_of_not_mem
        rw [← hk]
        simpa [dKeys] using hnd.1
      simp [hr, dGet_dSet, hk, dGet]
    · have hk' : ¬ k = p.1 := fun hh => hk hh.symm
      have hd : dGet (dSet d p.1 p.2) k = dGet d k := by
        rw [dGet_dSet]
        simp [hk']
      simp only [dGet, if_neg hk, hd]

theorem dKeys_dUpdate_nodup {α : Type} (d e : List (String × α))
    (h : (dKeys d).Nodup) : (dKeys (dUpdate d e)).Nodup := by
  induction e generalizing d with
  | nil => exact h
  | cons p rest ih => exact ih _ (dKeys_dSet_nodup d p.1 p.2 h)

theorem consolidateMd_cons (p : Ents × String) (ps : List (Ents × String)) :
    consolidateMd (p :: ps) = dUpdate (consolidateMd ps) p.1 := by
  simp [consolidateMd, List.reverse_cons, List.foldl_append]

theorem dKeys_consolidateMd_nodup (payloads : List (Ents × String)) :
    (dKeys (consolidateMd payloads)).Nodup := by
  have hgen : ∀ (l : List (Ents × String)) (init : Ents), (dKeys init).Nodup →
      (dKeys (l.foldl (fun acc p => dUpdate acc p.1) init)).Nodup := by
    intro l
    induction l with
    | nil => intro init h; exact h
    | cons p rest ih => intro init h; exact ih _ (dKeys_dUpdate_nodup init p.1 h)
  exact hgen payloads.reverse [] (by simp [dKeys])

/-! Lemmas about `os.path.dirname` and the ancestry climb: the fuelled
`dirChain` satisfies the defining equation of the `while True` loop. -/

theorem dirnameRev_suffix (r : List Char) : dirnameRev r <:+ r := by
  unfold dirnameRev
  split_ifs with h1 h2
  · exact List.nil_suffix
  · exact List.dropWhile_suffix _
  · exact (List.dropWhile_suffix _).trans (List.dropWhile_suffix _)

theorem dirnameRev_length_lt (r : List Char) (h : dirnameRev r ≠ r) :
    (dirnameRev r).length < r.length := by
  have hs : dirnameRev r <:+ r := dirnameRev_suffix r
  have hle : (dirnameRev r).length ≤ r.length := hs.length_le
  rcases lt_or_eq_of_le hle with hlt | heq
  · exact hlt
  · exact absurd (hs.sublist.eq_of_length heq) h

theorem dirnameStr_length_lt (d : String) (h : dirnameStr d ≠ d) :
    (dirnameStr d).length < d.length := by
  have hne : dirnameRev d.data.reverse ≠ d.data.reverse := by
    intro heq
    apply h
    unfold dirnameStr
    rw [heq, List.reverse_reverse]
  have hlt := dirnameRev_length_lt d.data.reverse hne
  have h1 : (dirnameStr d).length = (dirnameRev d.data.reverse).length := by
    show ((dirnameRev d.data.reverse).reverse).length = _
    exact List.length_reverse _
  have h2 : d.length = d.data.reverse.length := (List.length_reverse d.data).symm
  rw [h1, h2]
  exact hlt

theorem dirChainF_fuel_irrel :
    ∀ (n m : Nat) (d : String), d.length < n → d.length < m →
      dirChainF n d = dirChainF m d := by
  intro n
  induction n with
  | zero => intro m d h _; exact absurd h (Nat.not_lt_zero _)
  | succ n ih =>
    intro m d hn hm
    cases m with
    | zero => exact absurd hm (Nat.not_lt_zero _)
    | succ m =>
      simp only [dirChainF]
      by_cases hfix : dirnameStr d = d
      · simp [hfix]
      · simp only [if_neg hfix]
        have hlt := dirnameStr_length_lt d hfix
        have h1 : (dirnameStr d).length < n := by omega
        have h2 : (dirnameStr d).length < m := by omega
        rw [ih m (dirnameStr d) h1 h2]

/-- The fuelled `dirChain` satisfies the defining equation of the
`while True` climb of lines 194-219: visit the directory, and continue
with its parent unless the parent equals the directory. Hence the fuel
`d.length + 1` is never exhausted and `dirChain` is a faithful model of
the loop. -/
theorem dirChain_eq (d : String) :
    dirChain d = if dirnameStr d = d then [d]
      else d :: dirChain (dirnameStr d) := by
  unfold dirChain
  by_cases hfix : dirnameStr d = d
  · simp [dirChainF, hfix]
  · simp only [dirChainF, if_neg hfix]
    congr 1
    have hlt := dirnameStr_length_lt d hfix
    exact dirChainF_fuel_irrel d.length ((dirnameStr d).length + 1)
      (dirnameStr d) (by omega) (by omega)

/-! Claim theorems. -/

theorem extractEntitiesGo_eq (bf : String) :
    ∀ (es : List Entity) (acc : List (String × (Entity × String))),
      extractEntitiesGo bf acc es = extractGo bf acc es := by
  intro es
  induction es with
  | nil => intro acc; rfl
  | cons e rest ih =>
    intro acc
    simp only [extractEntitiesGo, extractGo]
    cases hm : e.matchFile bf with
    | none =>
      by_cases hman : e.mandatory
      · simp [hman]
      · simp [hman, ih]
    | some m => exact ih _

/-- Claim C9: for every file and ordered entity map, the module-level
helper `_extract_entities` (lines 18-26) computes exactly the same
name → (entity, value) mapping as the inline extraction loop inside
`_index_file` (lines 47-53). -/
theorem c9_extract_equiv (bidsfile : String)
    (entities : List (String × Entity)) :
    extractEntities bidsfile entities = inlineMatchVals bidsfile entities :=
  extractEntitiesGo_eq bidsfile (dValues entities) []

/-- Claim C1 (code bug in the source): the walk reaches `/r/sub` with the
recursion's `force_index` parameter set to `True` (the directory matches
the force-index pattern), yet the invalid file inside it still produces
no File record, because `_index_file` (line 40) reads only the top-level
`force_index` argument of `index_layout` — falsy here — and never the
walk-computed flag. The second conjunct shows the very same walk indexes
the file once it is valid, isolating the per-file validity skip as the
cause. -/
theorem c1_forced_dir_file_still_skipped :
    indexLayoutWalk c1Layout false c1Tree [] = []
    ∧ indexLayoutWalk c1LayoutValid false c1Tree []
        = [("/r/sub/f.txt", [])] :=
  ⟨by decide, by decide⟩

theorem isPrefixOf_self (l : List Char) : l.isPrefixOf l = true := by
  induction l with
  | nil => rfl
  | cons a rest ih => simp [List.isPrefixOf, ih]

theorem isPrefixOf_append_left (l a b : List Char)
    (h : a.isPrefixOf b = true) : (l ++ a).isPrefixOf (l ++ b) = true := by
  induction l with
  | nil => simpa using h
  | cons c rest ih => simp [List.isPrefixOf, ih]

theorem strStartswith_pathJoin (a n pre : String)
    (h : strStartswith n pre = true) :
    strStartswith (pathJoin a n) (pathJoin a pre) = true := by
  unfold strStartswith pathJoin at *
  rw [String.data_append (a ++ "/") pre, String.data_append (a ++ "/") n]
  exact isPrefixOf_append_left _ _ _ h

/-- The subdirectory loop of lines 97-125 skips an entry whose absolute
path extends the root by a name beginning with `derivatives`, leaving
everything else (including the force-index threading across the
remaining siblings) unchanged: inserting such an entry anywhere in the
top-level listing does not change the walk's output. -/
theorem indexSubs_prune (L : Layout) (forceArg : Bool) (n : String)
    (hn : strStartswith n "derivatives" = true) (T : DirTree)
    (post : SubForest) :
    ∀ (pre : SubForest) (config : List Config) (fi : Bool),
      indexSubs forceArg L (sappend pre (SubForest.cons n T post))
          L.root config fi
        = indexSubs forceArg L (sappend pre post) L.root config fi
  | .nil, config, fi => by
    simp only [sappend, indexSubs]
    rw [if_pos (strStartswith_pathJoin L.root n "derivatives" hn)]
  | .cons dname sub rest, config, fi => by
    simp only [sappend, indexSubs]
    by_cases h1 :
        strStartswith (pathJoin L.root dname) (pathJoin L.root "derivatives") = true
    · simp only [if_pos h1]
      exact indexSubs_prune L forceArg n hn T post rest config fi
    · simp only [if_neg h1]
      by_cases h2 : matchesForce L (pathJoin L.root dname) = true
      · simp only [if_pos h2]
        rw [indexSubs_prune L forceArg n hn T post rest config true]
      · simp only [if_neg h2]
        by_cases h3 :
            (!(L.validateDir (pathJoin L.root dname)) && L.forcePats.isEmpty) = true
        · simp only [if_pos h3]
          exact indexSubs_prune L forceArg n hn T post rest config fi
        · simp only [if_neg h3]
          rw [indexSubs_prune L forceArg n hn T post rest config fi]

/-- Claim C6: a top-level directory entry literally named `derivatives`
is never visited by the walk, whatever the validity predicates, the
force-index patterns and flags, and whatever subtree hangs below it: the
walk's entire output — in particular every File record — is the same as
if the entry were absent. -/
theorem c6_derivatives_excluded (L : Layout) (forceArg : Bool)
    (cfg : Option Config) (files : List String) (pre post : SubForest)
    (T : DirTree) (config : List Config) :
    indexLayoutWalk L forceArg
        (.node cfg files (sappend pre (.cons "derivatives" T post))) config
      = indexLayoutWalk L forceArg (.node cfg files (sappend pre post)) config := by
  unfold indexLayoutWalk
  simp only [indexDir]
  rw [indexSubs_prune L forceArg "derivatives" (by decide) T post pre _ _]

/-- Claim C10: the derivatives exclusion of line 103 is a string-prefix
test (`startswith`), so every top-level entry whose name merely begins
with `derivatives` — for example `derivatives2` — is skipped exactly the
same way, contributing zero File records. -/
theorem c10_startswith_prune (L : Layout) (forceArg : Bool)
    (cfg : Option Config) (files : List String) (pre post : SubForest)
    (T : DirTree) (config : List Config) (n : String)
    (hn : strStartswith n "derivatives" = true) :
    indexLayoutWalk L forceArg
        (.node cfg files (sappend pre (.cons n T post))) config
      = indexLayoutWalk L forceArg (.node cfg files (sappend pre post)) config := by
  unfold indexLayoutWalk
  simp only [indexDir]
  rw [indexSubs_prune L forceArg n hn T post pre _ _]

/-- Witness for claim C10: a dataset whose only top-level entry is
`derivatives2` (holding a file) produces no File records at all. -/
theorem c10_witness :
    indexLayoutWalk c10L false
        (.node none [] (.cons "derivatives2" c10T .nil)) [] = [] := by
  have h := c10_startswith_prune c10L false none [] SubForest.nil
    SubForest.nil c10T [] "derivatives2" (by decide)
  exact h.trans (by decide)

/-- Claim C2: the consolidated metadata map of lines 232-235 applies the
matching payloads in reverse visitation order with shallow key-by-key
overwrite, so a key resolves to the value of the first (closest) visited
payload that carries it, while keys only present in farther payloads
survive; in particular, for the fixture with sidecar a=1, b=2 at the root
and b=3 in the file's subdirectory, the file's metadata-derived tags are
exactly a=1, b=3. -/
theorem c2_sidecar_precedence :
    (∀ (payloads : List (Ents × String)) (k : String),
        (∀ pl ∈ payloads, (dKeys pl.1).Nodup) →
        dGet (consolidateMd payloads) k
          = (payloads.find? (fun p => (dGet p.1 k).isSome)).bind
              (fun p => dGet p.1 k))
    ∧ (indexMetadata c2ReadJson [] c2Files).tags
        = [⟨"/r/s/x_T.nii", "a", .i 1⟩, ⟨"/r/s/x_T.nii", "b", .i 3⟩] := by
  constructor
  · intro payloads k
    induction payloads with
    | nil => intro _; simp [consolidateMd, dGet]
    | cons p ps ih =>
      intro hnd
      rw [consolidateMd_cons, dGet_dUpdate _ _ _ (hnd p (by simp))]
      by_cases hs : (dGet p.1 k).isSome = true
      · rw [if_pos hs, List.find?_cons_of_pos _ (by simpa using hs)]
        simp
      · rw [if_neg hs, List.find?_cons_of_neg _ (by simpa using hs)]
        exact ih (fun pl hm => hnd pl (List.mem_cons_of_mem _ hm))
  · decide

/-- Witness for claim C2: the characterization applied to the concrete
payload stack of the fixture (closest sidecar first): key `b` resolves
to the closer value 3. -/
theorem c2_witness :
    dGet (consolidateMd
        [([("b", Val.i 3)], "/r/s/t_T.json"),
         ([("a", Val.i 1), ("b", Val.i 2)], "/r/t_T.json")]) "b"
      = some (Val.i 3) := by
  have h := c2_sidecar_precedence.1
    [([("b", Val.i 3)], "/r/s/t_T.json"),
     ([("a", Val.i 1), ("b", Val.i 2)], "/r/t_T.json")] "b" (by decide)
  rw [h]
  decide

/-- Claim C8: a non-JSON file whose ancestry climb collects no matching
sidecar payloads is left completely untouched by the metadata pass: its
per-file step returns the state unchanged — no associations, no
metadata tags, no new entities, and the walk-created records stand. -/
theorem c8_no_sidecar_frame (fd : FData) (st : MDState) (bf : MFile)
    (h : filePayloads fd bf = []) : processFile fd st bf = st := by
  simp only [filePayloads] at h
  simp only [processFile]
  cases hs : (dPop bf.entities "suffix").1 with
  | none => rfl
  | some suffix =>
    cases hx : (dPop (dPop bf.entities "suffix").2 "extension").1 with
    | none => rfl
    | some ext =>
      rw [hs, hx] at h
      dsimp only at h ⊢
      rw [h]
      rfl

/-- Witness for claim C8: the fixture file with suffix `Z` (no sidecar of
that suffix exists anywhere) leaves the empty state unchanged. -/
theorem c8_witness : processFile c2Fd c0St c8Bf = c0St :=
  c8_no_sidecar_frame c2Fd c0St c8Bf (by decide)

theorem chainAssocs_no_metadata (ps : List String) :
    (chainAssocs ps).filter (fun a => decide (a.kind = AKind.metadata)) = [] := by
  induction ps with
  | nil => rfl
  | cons a rest ih =>
    cases rest with
    | nil => rfl
    | cons b rest' =>
      simp only [chainAssocs, List.filter_cons]
      simp [ih]

/-- Claim C3: when the payload stack is non-empty, the per-file step
records exactly one symmetric pair of kind=Metadata associations, and
its sidecar endpoint is `payloads[-1]` — the payload appended last in
visitation order, i.e. the most distant matching sidecar (the
Child/Parent chains contribute no Metadata edges). -/
theorem c3_metadata_assoc_last (fd : FData) (st : MDState) (bf : MFile)
    (h : filePayloads fd bf ≠ []) :
    ((processFile fd st bf).assocs.drop st.assocs.length).filter
        (fun a => decide (a.kind = AKind.metadata))
      = [⟨((filePayloads fd bf).getLastD ([], "")).2, bf.path, AKind.metadata⟩,
         ⟨bf.path, ((filePayloads fd bf).getLastD ([], "")).2, AKind.metadata⟩] := by
  simp only [filePayloads] at h ⊢
  simp only [processFile]
  cases hs : (dPop bf.entities "suffix").1 with
  | none =>
    rw [hs] at h
    exact absurd rfl h
  | some suffix =>
    cases hx : (dPop (dPop bf.entities "suffix").2 "extension").1 with
    | none =>
      rw [hs, hx] at h
      exact absurd rfl h
    | some ext =>
      rw [hs, hx] at h
      dsimp only at h ⊢
      simp only [List.getLastD_eq_getLast?]
      cases hlast :
          (collectPayloads fd ("json/" ++ strOfVal suffix)
            (dPop (dPop bf.entities "suffix").2 "extension").2
            (dirChain bf.dirname)).getLast? with
      | none =>
        exact absurd (List.getLast?_eq_none_iff.mp hlast) h
      | some lastP =>
        dsimp only
        simp only [List.append_assoc]
        rw [List.drop_left]
        simp [List.filter_append, chainAssocs_no_metadata, List.filter_cons]

/-- Witness for claim C3: in the two-sidecar fixture the Metadata pair
connects the data file with the ROOT sidecar (the most distant match),
not the closer one in its own directory. -/
theorem c3_witness :
    ((processFile c2Fd c0St c2BfX).assocs.drop c0St.assocs.length).filter
        (fun a => decide (a.kind = AKind.metadata))
      = [⟨"/r/t_T.json", "/r/s/x_T.nii", AKind.metadata⟩,
         ⟨"/r/s/x_T.nii", "/r/t_T.json", AKind.metadata⟩] := by
  have h := c3_metadata_assoc_last c2Fd c0St c2BfX (by decide)
  exact h.trans (by decide)

theorem dSet_forall {α : Type} (P : String × α → Prop)
    (d : List (String × α)) (k : String) (v : α)
    (hd : ∀ p ∈ d, P p) (hv : P (k, v)) : ∀ p ∈ dSet d k v, P p := by
  induction d with
  | nil =>
    intro p hp
    simp only [dSet, List.mem_singleton] at hp
    rw [hp]
    exact hv
  | cons q rest ih =>
    intro p hp
    simp only [dSet] at hp
    by_cases hq : q.1 = k
    · rw [if_pos hq] at hp
      rcases List.mem_cons.mp hp with h1 | h2
      · rw [h1]; exact hv
      · exact hd p (List.mem_cons_of_mem _ h2)
    · rw [if_neg hq] at hp
      rcases List.mem_cons.mp hp with h1 | h2
      · rw [h1]; exact hd q (List.mem_cons_self _ _)
      · exact ih (fun r hr => hd r (List.mem_cons_of_mem _ hr)) p h2

/-- The break of line 50-51: once the iteration meets a mandatory entity
that fails to match, the loop returns the matches accumulated so far —
whatever entities would have followed. -/
theorem extractGo_stop (bf : String) (B : Entity) (es2 : List Entity)
    (hBman : B.mandatory = true) (hBfail : B.matchFile bf = none) :
    ∀ (es1 : List Entity) (acc : List (String × (Entity × String))),
      (∀ e ∈ es1, e.matchFile bf ≠ none ∨ e.mandatory = false) →
      extractGo bf acc (es1 ++ B :: es2) = extractGo bf acc es1 := by
  intro es1
  induction es1 with
  | nil =>
    intro acc _
    simp [extractGo, hBfail, hBman]
  | cons e rest ih =>
    intro acc hpass
    simp only [List.cons_append, extractGo]
    cases hm : e.matchFile bf with
    | none =>
      have hmf : e.mandatory = false := by
        rcases hpass e (List.mem_cons_self _ _) with h1 | h2
        · exact absurd hm h1
        · exact h2
      simp only [hmf]
      simp only [Bool.false_eq_true, if_false]
      exact ih acc (fun x hx => hpass x (List.mem_cons_of_mem _ hx))
    | some m => exact ih _ (fun x hx => hpass x (List.mem_cons_of_mem _ hx))

/-- A name not belonging to any iterated entity is never written by the
extraction loop. -/
theorem extractGo_dGet_preserve (bf n : String) :
    ∀ (es : List Entity) (acc : List (String × (Entity × String))),
      n ∉ es.map Entity.name →
      dGet (extractGo bf acc es) n = dGet acc n := by
  intro es
  induction es with
  | nil => intro acc _; rfl
  | cons e rest ih =>
    intro acc hn
    simp only [List.map_cons, List.mem_cons] at hn
    push_neg at hn
    simp only [extractGo]
    cases hm : e.matchFile bf with
    | none =>
      by_cases hman : e.mandatory = true
      · simp [hman]
      · simp [hman, ih _ hn.2]
    | some m =>
      rw [ih _ hn.2, dGet_dSet]
      simp [hn.1]

/-- A successfully matching entity that the loop reaches (everything
before it matches or is optional, names pairwise distinct) ends up in
`match_vals` with its matched value. -/
theorem extractGo_dGet_matched (bf : String) (A : Entity) (vA : String)
    (hAm : A.matchFile bf = some vA) :
    ∀ (es : List Entity) (acc : List (String × (Entity × String))),
      (es.map Entity.name).Nodup →
      (∀ e ∈ es, e.matchFile bf ≠ none ∨ e.mandatory = false) →
      A ∈ es →
      dGet (extractGo bf acc es) A.name = some (A, vA) := by
  intro es
  induction es with
  | nil => intro acc _ _ hA; exact absurd hA (List.not_mem_nil _)
  | cons e rest ih =>
    intro acc hnd hpass hA
    simp only [List.map_cons, List.nodup_cons] at hnd
    rcases List.mem_cons.mp hA with hAe | hAr
    · subst hAe
      simp only [extractGo, hAm]
      rw [extractGo_dGet_preserve bf A.name rest _ hnd.1, dGet_dSet]
      simp
    · simp only [extractGo]
      cases hm : e.matchFile bf with
      | none =>
        have hmf : e.mandatory = false := by
          rcases hpass e (List.mem_cons_self _ _) with h1 | h2
          · exact absurd hm h1
          · exact h2
        simp only [hmf, Bool.false_eq_true, if_false]
        exact ih _ hnd.2 (fun x hx => hpass x (List.mem_cons_of_mem _ hx)) hAr
      | some m =>
        exact ih _ hnd.2 (fun x hx => hpass x (List.mem_cons_of_mem _ hx)) hAr

/-- Every key of the extraction result comes from the accumulator or from
an iterated entity's name. -/
theorem extractGo_keys (bf : String) :
    ∀ (es : List Entity) (acc : List (String × (Entity × String))),
      ∀ p ∈ extractGo bf acc es, p.1 ∈ dKeys acc ∨ p.1 ∈ es.map Entity.name := by
  intro es
  induction es with
  | nil =>
    intro acc p hp
    left
    simp only [dKeys]
    exact List.mem_map_of_mem _ hp
  | cons e rest ih =>
    intro acc p hp
    simp only [extractGo] at hp
    cases hm : e.matchFile bf with
    | none =>
      rw [hm] at hp
      dsimp only at hp
      by_cases hman : e.mandatory = true
      · rw [if_pos hman] at hp
        left
        simp only [dKeys]
        exact List.mem_map_of_mem _ hp
      · rw [if_neg hman] at hp
        rcases ih acc p hp with h1 | h2
        · left; exact h1
        · right; simp [h2]
    | some m =>
      rw [hm] at hp
      dsimp only at hp
      rcases ih _ p hp with h1 | h2
      · rcases dSet_keys_sub acc e.name (e, m) p.1 h1 with h3 | h4
        · left; exact h3
        · right; simp [h4]
      · right; simp [h2]

/-- Every entry of the extraction result maps a name to an entity of that
very name. -/
theorem extractGo_consistent (bf : String) :
    ∀ (es : List Entity) (acc : List (String × (Entity × String))),
      (∀ p ∈ acc, p.2.1.name = p.1) →
      ∀ p ∈ extractGo bf acc es, p.2.1.name = p.1 := by
  intro es
  induction es with
  | nil => intro acc hacc p hp; exact hacc p hp
  | cons e rest ih =>
    intro acc hacc p hp
    simp only [extractGo] at hp
    cases hm : e.matchFile bf with
    | none =>
      rw [hm] at hp
      dsimp only at hp
      by_cases hman : e.mandatory = true
      · rw [if_pos hman] at hp
        exact hacc p hp
      · rw [if_neg hman] at hp
        exact ih acc hacc p hp
    | some m =>
      rw [hm] at hp
      dsimp only at hp
      exact ih _ (dSet_forall _ acc e.name (e, m) hacc rfl) p hp

/-- Claim C4: for a file whose entity iteration reaches a mandatory,
non-matching entity B preceded by a matching entity A, `_index_file`
still creates the File record, keeps A's tag, and creates no tag for B
nor for any entity listed after B. -/
theorem c4_mandatory_stop (L : Layout) (forceArg : Bool) (f dirpath : String)
    (ents : List (String × Entity)) (es1 es2 : List Entity)
    (A B : Entity) (vA : String)
    (hvals : dValues ents = es1 ++ B :: es2)
    (hA : A ∈ es1)
    (hAm : A.matchFile (pathJoin dirpath f) = some vA)
    (hBman : B.mandatory = true)
    (hBfail : B.matchFile (pathJoin dirpath f) = none)
    (hpass : ∀ e ∈ es1,
      e.matchFile (pathJoin dirpath f) ≠ none ∨ e.mandatory = false)
    (hnd : ((es1 ++ B :: es2).map Entity.name).Nodup)
    (hvalid : L.validateFile (pathJoin dirpath f) = true) :
    (indexFileRec forceArg L f dirpath ents).isSome = true
    ∧ Tag.mk (pathJoin dirpath f) A.name (Val.s vA)
        ∈ tagsOf (indexFileRec forceArg L f dirpath ents)
    ∧ (tagsOf (indexFileRec forceArg L f dirpath ents)).all
        (fun t => t.entity != B.name) = true
    ∧ es2.all (fun e =>
        (tagsOf (indexFileRec forceArg L f dirpath ents)).all
          (fun t => t.entity != e.name)) = true := by
  have hcond : (!forceArg && !L.validateFile (pathJoin dirpath f)) = false := by
    rw [hvalid]
    simp
  have hres : indexFileRec forceArg L f dirpath ents
      = some (pathJoin dirpath f,
          (extractGo (pathJoin dirpath f) [] es1).map
            (fun p => Tag.mk (pathJoin dirpath f) p.2.1.name (Val.s p.2.2))) := by
    simp only [indexFileRec]
    simp only [hcond, Bool.false_eq_true, if_false]
    rw [hvals,
      extractGo_stop (pathJoin dirpath f) B es2 hBman hBfail es1 [] hpass]
  rw [List.map_append] at hnd
  have hnd1 : (es1.map Entity.name).Nodup := (List.nodup_append.mp hnd).1
  have hdisj := (List.nodup_append.mp hnd).2.2
  have hkeys : ∀ p ∈ extractGo (pathJoin dirpath f) [] es1,
      p.1 ∈ es1.map Entity.name := by
    intro p hp
    rcases extractGo_keys _ es1 [] p hp with h1 | h2
    · simp [dKeys] at h1
    · exact h2
  have hcons : ∀ p ∈ extractGo (pathJoin dirpath f) [] es1, p.2.1.name = p.1 :=
    extractGo_consistent _ es1 []
      (fun p hp => absurd hp (List.not_mem_nil p))
  rw [hres]
  refine ⟨rfl, ?_, ?_, ?_⟩
  · have hget : dGet (extractGo (pathJoin dirpath f) [] es1) A.name
        = some (A, vA) :=
      extractGo_dGet_matched _ A vA hAm es1 [] hnd1 hpass hA
    exact List.mem_map_of_mem _ (dGet_mem _ _ _ hget)
  · rw [List.all_eq_true]
    intro t ht
    have ht' : t ∈ (extractGo (pathJoin dirpath f) [] es1).map
        (fun p => Tag.mk (pathJoin dirpath f) p.2.1.name (Val.s p.2.2)) := ht
    rcases List.mem_map.mp ht' with ⟨p, hp, hfp⟩
    rw [← hfp]
    simp only [bne_iff_ne]
    show p.2.1.name ≠ B.name
    rw [hcons p hp]
    intro he
    exact hdisj (hkeys p hp) (by rw [he]; simp)
  · rw [List.all_eq_true]
    intro e he
    rw [List.all_eq_true]
    intro t ht
    have ht' : t ∈ (extractGo (pathJoin dirpath f) [] es1).map
        (fun p => Tag.mk (pathJoin dirpath f) p.2.1.name (Val.s p.2.2)) := ht
    rcases List.mem_map.mp ht' with ⟨p, hp, hfp⟩
    rw [← hfp]
    simp only [bne_iff_ne]
    show p.2.1.name ≠ e.name
    rw [hcons p hp]
    intro hne
    refine hdisj (hkeys p hp) ?_
    rw [hne]
    exact List.mem_map_of_mem _ (List.mem_cons_of_mem _ he)

/-- Witness for claim C4: in the fixture, entity A (`subj`) matches,
entity B (`task`) is mandatory and fails, entity C (`acq`) follows B and
would match: the record exists, A's tag is present, and neither B nor C
is tagged. -/
theorem c4_witness :
    (indexFileRec false c4L "f" "/r" c4Ents).isSome = true
    ∧ Tag.mk (pathJoin "/r" "f") c4A.name (Val.s "01")
        ∈ tagsOf (indexFileRec false c4L "f" "/r" c4Ents)
    ∧ (tagsOf (indexFileRec false c4L "f" "/r" c4Ents)).all
        (fun t => t.entity != c4B.name) = true
    ∧ [c4C].all (fun e =>
        (tagsOf (indexFileRec false c4L "f" "/r" c4Ents)).all
          (fun t => t.entity != e.name)) = true :=
  c4_mandatory_stop c4L false "f" "/r" c4Ents [c4A] [c4C] c4A c4B "01"
    rfl (List.mem_singleton.mpr rfl) (by decide) rfl (by decide)
    (by
      intro e he
      rw [List.mem_singleton.mp he]
      left
      decide)
    (by decide) rfl

theorem extractGo_keys_nodup (bf : String) :
    ∀ (es : List Entity) (acc : List (String × (Entity × String))),
      (dKeys acc).Nodup → (dKeys (extractGo bf acc es)).Nodup := by
  intro es
  induction es with
  | nil => intro acc h; exact h
  | cons e rest ih =>
    intro acc h
    simp only [extractGo]
    cases hm : e.matchFile bf with
    | none =>
      by_cases hman : e.mandatory = true
      · rw [if_pos hman]
        exact h
      · rw [if_neg hman]
        exact ih acc h
    | some m => exact ih _ (dKeys_dSet_nodup acc e.name (e, m) h)

theorem mdTagsGo_tags (bfPath : String) :
    ∀ (md : Ents) (ae : List (String × EntityRec)) (ne : List EntityRec)
      (tg : List Tag),
      (mdTagsGo bfPath md ae ne tg).2.2 = tg ++ mdDelta bfPath md ae := by
  intro md
  induction md with
  | nil => intro ae ne tg; simp [mdTagsGo, mdDelta]
  | cons p rest ih =>
    intro ae ne tg
    simp only [mdTagsGo, mdDelta]
    cases hg : dGet ae p.1 with
    | some er => rw [ih]; simp
    | none => rw [ih]; simp

theorem mdDelta_entities (bfPath : String) :
    ∀ (md : Ents) (ae : List (String × EntityRec)),
      (∀ p ∈ ae, p.2.name = p.1) →
      (mdDelta bfPath md ae).map (fun t => t.entity) = dKeys md := by
  intro md
  induction md with
  | nil => intro ae _; rfl
  | cons p rest ih =>
    intro ae hc
    simp only [mdDelta]
    cases hg : dGet ae p.1 with
    | some er =>
      have hname : er.name = p.1 := hc (p.1, er) (dGet_mem ae p.1 er hg)
      simp only [List.map_cons, dKeys, hname]
      have := ih ae hc
      simp only [dKeys] at this
      rw [this]
    | none =>
      simp only [List.map_cons, dKeys]
      have := ih (dSet ae p.1 ⟨p.1, true⟩)
        (dSet_forall _ ae p.1 ⟨p.1, true⟩ hc rfl)
      simp only [dKeys] at this
      rw [this]

/-- Claim C5 amended: each pass on its own never doubles a (File, Entity)
pair — the filename-derived tags of a File record have pairwise-distinct
entity names, and so do the metadata-derived tags one per-file metadata
step adds — but the run-wide invariant claimed by the spec fails across
the passes (see the counterexample): a sidecar key equal to an
already-tagged filename entity yields a second Tag for the same pair. -/
theorem c5_per_pass_unique :
    (∀ (forceArg : Bool) (L : Layout) (f dirpath : String)
        (ents : List (String × Entity)) (r : String × List Tag),
        indexFileRec forceArg L f dirpath ents = some r →
        ((r.2.map (fun t => t.entity)).Nodup))
    ∧ (∀ (fd : FData) (st : MDState) (bf : MFile),
        (∀ p ∈ st.allEntities, p.2.name = p.1) →
        ((((processFile fd st bf).tags.drop st.tags.length).map
            (fun t => t.entity)).Nodup)) := by
  constructor
  · intro forceArg L f dirpath ents r h
    simp only [indexFileRec] at h
    split at h
    · exact absurd h (by simp)
    · have hr : r = (pathJoin dirpath f,
          (extractGo (pathJoin dirpath f) [] (dValues ents)).map
            (fun p => Tag.mk (pathJoin dirpath f) p.2.1.name (Val.s p.2.2))) := by
        injection h with h'
        exact h'.symm
      rw [hr]
      rw [List.map_map]
      have hmap : (extractGo (pathJoin dirpath f) [] (dValues ents)).map
            ((fun t => t.entity)
              ∘ (fun p => Tag.mk (pathJoin dirpath f) p.2.1.name (Val.s p.2.2)))
          = (extractGo (pathJoin dirpath f) [] (dValues ents)).map
              (fun p => p.1) := by
        apply List.map_congr_left
        intro p hp
        exact extractGo_consistent _ (dValues ents) []
          (fun q hq => absurd hq (List.not_mem_nil q)) p hp
      rw [hmap]
      have hkn := extractGo_keys_nodup (pathJoin dirpath f) (dValues ents) []
        (by simp [dKeys])
      simpa [dKeys] using hkn
  · intro fd st bf hc
    simp only [processFile]
    cases hs : (dPop bf.entities "suffix").1 with
    | none => simp [List.drop_length]
    | some suffix =>
      cases hx : (dPop (dPop bf.entities "suffix").2 "extension").1 with
      | none => simp [List.drop_length]
      | some ext =>
        dsimp only
        cases hlast : (collectPayloads fd ("json/" ++ strOfVal suffix)
            (dPop (dPop bf.entities "suffix").2 "extension").2
            (dirChain bf.dirname)).getLast? with
        | none => simp [List.drop_length]
        | some lastP =>
          dsimp only
          rw [mdTagsGo_tags bf.path _ st.allEntities st.newEntities st.tags]
          rw [List.drop_left]
          rw [mdDelta_entities bf.path _ st.allEntities hc]
          exact dKeys_consolidateMd_nodup _

/-- Counterexample for claim C5 as stated: in the complete fixture run
the file `/r/a.nii` carries TWO Tags for the single (File, Entity) pair
(`/r/a.nii`, `run`) — one from its filename during the walk, one from
the sidecar key `run` during metadata resolution — so "at most one Tag
per (File, Entity) pair" fails across the passes. -/
theorem c5_duplicate_tag_counterexample :
    c5AllTags.filter (fun t => t.file == "/r/a.nii" && t.entity == "run")
      = [Tag.mk "/r/a.nii" "run" (Val.s "1"),
         Tag.mk "/r/a.nii" "run" (Val.i 2)] := by
  decide

/-- Witness for the amended claim C5: the walk tags of `/r/a.nii` (as
produced by `_index_file` on the fixture) have pairwise-distinct entity
names, and so do the metadata tags added for the fixture data file. -/
theorem c5_witness :
    ((("/r/a.nii",
        [Tag.mk "/r/a.nii" "suffix" (Val.s "T"),
         Tag.mk "/r/a.nii" "extension" (Val.s "nii"),
         Tag.mk "/r/a.nii" "run" (Val.s "1")]) : String × List Tag).2.map
          (fun t => t.entity)).Nodup
    ∧ ((((processFile c2Fd c0St c2BfX).tags.drop c0St.tags.length).map
          (fun t => t.entity)).Nodup) := by
  constructor
  · exact c5_per_pass_unique.1 false c5Layout "a.nii" "/r" c5Cfg _ (by decide)
  · exact c5_per_pass_unique.2 c2Fd c0St c2BfX
      (fun p hp => absurd hp (List.not_mem_nil p))

theorem mdTagsGo_inv (cfgEnts : List (String × EntityRec)) (bfPath : String) :
    ∀ (md : Ents) (ae : List (String × EntityRec)) (ne : List EntityRec)
      (tg : List Tag),
      MDInv cfgEnts ae ne →
      MDInv cfgEnts (mdTagsGo bfPath md ae ne tg).1
        (mdTagsGo bfPath md ae ne tg).2.1 := by
  intro md
  induction md with
  | nil => intro ae ne tg h; exact h
  | cons p rest ih =>
    intro ae ne tg hinv
    obtain ⟨h1, h2, h3, h4⟩ := hinv
    simp only [mdTagsGo]
    cases hg : dGet ae p.1 with
    | some er => exact ih ae ne _ ⟨h1, h2, h3, h4⟩
    | none =>
      refine ih _ _ _ ⟨?_, ?_, ?_, ?_⟩
      · exact dSet_forall _ ae p.1 ⟨p.1, true⟩ h1 rfl
      · rw [List.map_append, List.nodup_append]
        refine ⟨h2, List.nodup_singleton _, ?_⟩
        intro x hx hx'
        simp only [List.map_cons, List.map_nil, List.mem_singleton] at hx'
        rcases List.mem_map.mp hx with ⟨er, her, hname⟩
        have := (h3 er her).2.2
        rw [hname, hx'] at this
        rw [hg] at this
        exact Option.noConfusion this
      · intro er her
        rcases List.mem_append.mp her with hold | hnew
        · obtain ⟨ha, hb, hcc⟩ := h3 er hold
          refine ⟨ha, hb, ?_⟩
          rw [dGet_dSet]
          have hne : er.name ≠ p.1 := by
            intro he
            rw [he] at hcc
            rw [hg] at hcc
            exact Option.noConfusion hcc
          rw [if_neg hne]
          exact hcc
        · rw [List.mem_singleton.mp hnew]
          refine ⟨rfl, h4 p.1 hg, ?_⟩
          rw [dGet_dSet, if_pos rfl]
      · intro k hk
        rw [dGet_dSet] at hk
        by_cases hkp : k = p.1
        · rw [if_pos hkp] at hk
          exact Option.noConfusion hk
        · rw [if_neg hkp] at hk
          exact h4 k hk

theorem processFile_inv (cfgEnts : List (String × EntityRec)) (fd : FData)
    (st : MDState) (bf : MFile)
    (hinv : MDInv cfgEnts st.allEntities st.newEntities) :
    MDInv cfgEnts (processFile fd st bf).allEntities
      (processFile fd st bf).newEntities := by
  simp only [processFile]
  cases hs : (dPop bf.entities "suffix").1 with
  | none => exact hinv
  | some suffix =>
    cases hx : (dPop (dPop bf.entities "suffix").2 "extension").1 with
    | none => exact hinv
    | some ext =>
      dsimp only
      cases hlast : (collectPayloads fd ("json/" ++ strOfVal suffix)
          (dPop (dPop bf.entities "suffix").2 "extension").2
          (dirChain bf.dirname)).getLast? with
      | none => exact hinv
      | some lastP =>
        dsimp only
        exact mdTagsGo_inv cfgEnts bf.path _ st.allEntities st.newEntities
          st.tags hinv

theorem foldl_processFile_inv (cfgEnts : List (String × EntityRec))
    (fd : FData) :
    ∀ (fs : List MFile) (st : MDState),
      MDInv cfgEnts st.allEntities st.newEntities →
      MDInv cfgEnts
        ((fs.foldl (fun st bf => processFile fd st bf) st).allEntities)
        ((fs.foldl (fun st bf => processFile fd st bf) st).newEntities) := by
  intro fs
  induction fs with
  | nil => intro st h; exact h
  | cons bf rest ih =>
    intro st h
    exact ih _ (processFile_inv cfgEnts fd st bf h)

/-- Claim C7: during one metadata pass a metadata Entity is created at
most once per key name — the new Entity rows have pairwise-distinct
names — and each creation is for a name no config entity had, carries
isMetadata=true, and stays what the run-global registry maps that name
to, so every subsequently processed file carrying the key reuses the
same Entity record (the loop has no conflict/failure path). -/
theorem c7_lazy_entity_dedup (readJson : String → Ents)
    (cfgEnts : List (String × EntityRec)) (files : List MFile)
    (hc : ∀ p ∈ cfgEnts, p.2.name = p.1) :
    ((indexMetadata readJson cfgEnts files).newEntities.map
        (fun e => e.name)).Nodup
    ∧ (indexMetadata readJson cfgEnts files).newEntities.all
        (fun er => er.isMetadata && decide (dGet cfgEnts er.name = none)
          && decide (dGet (indexMetadata readJson cfgEnts files).allEntities
              er.name = some er)) = true := by
  have hinit : MDInv cfgEnts
      (MDState.mk cfgEnts [] [] []).allEntities
      (MDState.mk cfgEnts [] [] []).newEntities := by
    refine ⟨hc, List.nodup_nil, ?_, ?_⟩
    · intro er her
      exact absurd her (List.not_mem_nil er)
    · intro k hk
      exact hk
  have hfin := foldl_processFile_inv cfgEnts
    (buildFileData readJson files [])
    (files.filter (fun bf => !(strEndswith bf.path ".json")))
    (MDState.mk cfgEnts [] [] []) hinit
  have heq : indexMetadata readJson cfgEnts files
      = (files.filter (fun bf => !(strEndswith bf.path ".json"))).foldl
          (fun st bf => processFile (buildFileData readJson files []) st bf)
          (MDState.mk cfgEnts [] [] []) := rfl
  rw [heq]
  obtain ⟨h1, h2, h3, h4⟩ := hfin
  refine ⟨h2, ?_⟩
  rw [List.all_eq_true]
  intro er her
  obtain ⟨ha, hb, hcc⟩ := h3 er her
  simp [ha, hb, hcc]

/-- Witness for claim C7: two data files share the sidecar key `a`; the
run creates one Entity row for `a`, metadata-flagged and registered. -/
theorem c7_witness :
    ((indexMetadata c7ReadJson [] c7Files).newEntities.map
        (fun e => e.name)).Nodup
    ∧ (indexMetadata c7ReadJson [] c7Files).newEntities.all
        (fun er => er.isMetadata
          && decide (dGet ([] : List (String × EntityRec)) er.name = none)
          && decide (dGet (indexMetadata c7ReadJson [] c7Files).allEntities
              er.name = some er)) = true :=
  c7_lazy_entity_dedup c7ReadJson [] c7Files
    (fun p hp => absurd hp (List.not_mem_nil p))

end PyBids